import Mathlib

/-!
# Verification of the Evolutionary Strategies notebook

A shallow embedding, over the reals, of the numeric snippets in
`src/notebooks/Evolutionary Strategies.ipynb` (the $(1+\lambda)$-ES and CMA-ES
instructional notebooks): the Himmelblau objective, the rank-based log weights,
the rank-weighted step vector, the rank-one covariance update, the
eigendecomposition-based sampling transform, and the `x_best`-tracking loop of
the combined ES pseudocode.  NumPy float arrays are modelled as real vectors
(`Fin n → ℝ`) and real matrices (`Matrix (Fin n) (Fin n) ℝ`); NumPy float
arithmetic is modelled as exact real arithmetic.
-/

open List Matrix

namespace ES

/-- The Himmelblau benchmark function, from the notebook cell
`def himmelblau(x, y): return (x**2 + y - 11)**2 + (x + y**2 - 7)**2`. -/
def himmelblau (x y : ℝ) : ℝ := (x ^ 2 + y - 11) ^ 2 + (x + y ^ 2 - 7) ^ 2

/-! ## Rank-based weights

From the cell
`w = np.log(mu + 1/2) - np.log(np.arange(1, mu+1)); w /= np.sum(w)`:
the unnormalized weight of 1-based rank `k` is `log(mu + 1/2) - log k`,
and the vector is then divided by its sum. -/

/-- Unnormalized weight of rank `k` (1-based) among `mu` selected members:
`np.log(mu + 1/2) - np.log(k)`. -/
noncomputable def rawWeight (mu k : ℕ) : ℝ :=
  Real.log ((mu : ℝ) + 1 / 2) - Real.log (k : ℝ)

/-- `np.sum(w)` over ranks `1..mu` before normalization. -/
noncomputable def weightTotal (mu : ℕ) : ℝ :=
  ∑ k in Finset.Icc 1 mu, rawWeight mu k

/-- Normalized weight of rank `k`: `w /= np.sum(w)`. -/
noncomputable def weight (mu k : ℕ) : ℝ := rawWeight mu k / weightTotal mu

/-! ## Sorting by fitness

The notebook computes `sorted_ids = np.argsort(fits)`.  `np.argsort` promises a
permutation of the indices along which the values are ascending; its default
`kind='quicksort'` is documented by NumPy as *not* stable, so the order of
indices carrying equal values is unspecified.  `NpArgsortSpec` captures exactly
that contract.  `sortedIds` is the deterministic comparison-based refinement
with stable tie-breaking (NumPy's `kind='stable'`); on fitness vectors without
ties—the only inputs on which the default kind's output is determined—every
argsort, `sortedIds` included, returns the same index list. -/

/-- Comparison used to sort `(index, fitness)` pairs by ascending fitness. -/
def rankLE (p q : ℕ × ℝ) : Prop := p.2 ≤ q.2

noncomputable instance : DecidableRel rankLE := fun p q =>
  inferInstanceAs (Decidable (p.2 ≤ q.2))

instance : IsTotal (ℕ × ℝ) rankLE := ⟨fun p q => le_total p.2 q.2⟩

instance : IsTrans (ℕ × ℝ) rankLE := ⟨fun _ _ _ h h' => le_trans h h'⟩

/-- `np.argsort(fits)` realized as a stable comparison sort: pair every fitness
value with its original index, sort the pairs by fitness with a stable
insertion sort, and return the indices. -/
noncomputable def sortedIds (fits : List ℝ) : List ℕ :=
  (fits.enum.insertionSort rankLE).map Prod.fst

/-- The contract NumPy documents for `np.argsort(fits)` with the default
`kind='quicksort'`: the result is a permutation of `0..len(fits)-1` along which
the fitness values are ascending.  No tie-order is promised. -/
def NpArgsortSpec (fits : List ℝ) (ids : List ℕ) : Prop :=
  ids ~ List.range fits.length ∧
    (ids.map fun i => fits.getD i 0).Sorted (· ≤ ·)

/-- Stability of an argsort result, as the spec states it: whenever two members
have equal fitness, the member drawn earlier (smaller original index) receives
the better (earlier) rank. -/
def StableTies (fits : List ℝ) (ids : List ℕ) : Prop :=
  ∀ a b : ℕ, a < b → b < fits.length → fits.getD a 0 = fits.getD b 0 →
    ids.indexOf a < ids.indexOf b

/-! ## The rank-weighted step vector

From the cell
`weighted = N[sorted_ids[:mu]] * w.reshape(mu, 1); s = np.mean(weighted, axis=0)`:
row `k` of `weighted` is the offset of the `k`-th ranked member scaled by
`w_k`, and `np.mean(·, axis=0)` sums those `mu` rows and divides by `mu`. -/

/-- The step vector `s` as the code computes it: the top-`mu` ranked offsets
scaled by the normalized weights, then averaged over the `mu` rows by
`np.mean(weighted, axis=0)` (which divides the rank-weighted sum by `mu`).
`N i` is the raw offset of the member with original sample index `i`. -/
noncomputable def selectAndWeight {n : ℕ} (fits : List ℝ) (N : ℕ → Fin n → ℝ)
    (mu : ℕ) : Fin n → ℝ :=
  fun j =>
    (∑ k in Finset.range mu, weight mu (k + 1) * N ((sortedIds fits).getD k 0) j)
      / (mu : ℝ)

/-- The step vector as §4.1 of the spec words it: `s = sum_k w_k * t_(k)`, the
weighted sum over the `mu` best-ranked offsets, with no further division. -/
noncomputable def specStep {n : ℕ} (fits : List ℝ) (N : ℕ → Fin n → ℝ)
    (mu : ℕ) : Fin n → ℝ :=
  fun j =>
    ∑ k in Finset.range mu, weight mu (k + 1) * N ((sortedIds fits).getD k 0) j

/-! ## Covariance updates -/

/-- The covariance update as the notebook performs it:
`C = C + np.outer(s, (s).T)`. -/
def updateCovarianceCode {n : ℕ} (C : Matrix (Fin n) (Fin n) ℝ)
    (s : Fin n → ℝ) : Matrix (Fin n) (Fin n) ℝ :=
  C + vecMulVec s s

/-- Modelled from the spec: `update_covariance(covariance, s, learning_rate)`
in its "default blended form" `covariance' = (1 - c) * covariance +
c * outer(s, s)`; the `learning_rate` parameter does not appear in the
notebook code, whose additive update is `updateCovarianceCode`. -/
def updateCovariance {n : ℕ} (c : ℝ) (C : Matrix (Fin n) (Fin n) ℝ)
    (s : Fin n → ℝ) : Matrix (Fin n) (Fin n) ℝ :=
  (1 - c) • C + c • vecMulVec s s

/-! ## Eigendecomposition-based sampling

From the cell
`eigenvalues, eigenvectors = np.linalg.eig(C)` followed by
`x_C = x + np.array([np.dot(eigenvectors, np.sqrt(eigenvalues) * N[i, :]) for i in range(lam)])`. -/

/-- One transformed offset:
`np.dot(eigenvectors, np.sqrt(eigenvalues) * N[i, :])`, i.e.
`t = Q · (sqrt(e) elementwise * z)`. -/
noncomputable def sampleOffset {n : ℕ} (Q : Matrix (Fin n) (Fin n) ℝ)
    (e : Fin n → ℝ) (z : Fin n → ℝ) : Fin n → ℝ :=
  Q.mulVec fun i => Real.sqrt (e i) * z i

/-- One sampled point `x_i = mean + t_i`. -/
noncomputable def samplePoint {n : ℕ} (mean : Fin n → ℝ)
    (Q : Matrix (Fin n) (Fin n) ℝ) (e : Fin n → ℝ) (z : Fin n → ℝ) :
    Fin n → ℝ :=
  mean + sampleOffset Q e z

/-- The linear transform `M = Q · diag(sqrt(e))` applied to the standard-normal
draws by the sampling cell. -/
noncomputable def sampleTransform {n : ℕ} (Q : Matrix (Fin n) (Fin n) ℝ)
    (e : Fin n → ℝ) : Matrix (Fin n) (Fin n) ℝ :=
  Q * Matrix.diagonal fun i => Real.sqrt (e i)

/-- The error `sample` signals on a covariance that is not numerically PSD. -/
inductive InvalidCovarianceError : Type where
  | invalidCovariance : InvalidCovarianceError

/-- Modelled from the spec: the notebook's sampling cell performs no
eigenvalue check, so the failure behaviour of `sample` is taken from §4.1/§7
of the spec: if any eigenvalue of the covariance lies below `-epsilon`, signal
`InvalidCovarianceError`; otherwise return, for each standard-normal draw
`z_i`, the pair of the raw offset `t_i` (computed from the unclamped
eigenvalues, as in the code cell) and the point `mean + t_i`. -/
noncomputable def sample {n : ℕ} (mean : Fin n → ℝ)
    (Q : Matrix (Fin n) (Fin n) ℝ) (e : Fin n → ℝ) (eps : ℝ)
    (zs : List (Fin n → ℝ)) :
    Except InvalidCovarianceError (List ((Fin n → ℝ) × (Fin n → ℝ))) :=
  if ∃ i, e i < -eps then
    Except.error InvalidCovarianceError.invalidCovariance
  else
    Except.ok (zs.map fun z => (sampleOffset Q e z, samplePoint mean Q e z))

/-! ## The combined ES loop with `x_best` tracking

From the pseudocode cell:
```
Initialize x randomly in ℝ
x_best = x
while not terminate
    for i in [1,λ]
        N_i = 𝑁(0, 1)
        F_i = f(x + N_i)
        if F_i < f(x_best)
            x_best = x + N_i
    A = (F−𝜇(F))/𝜎(F)
    x = x - 𝛼(A⋅N)/𝜆
return x_best
```
The random draws `N_1..N_λ` of each generation are taken as an input list, so
one generation is a deterministic function of `(x, x_best)` and the draws. -/

/-- Sample mean `𝜇(F)` of a list of fitness values. -/
noncomputable def listMean (Fs : List ℝ) : ℝ := Fs.sum / (Fs.length : ℝ)

/-- Sample standard deviation `𝜎(F)` of a list of fitness values. -/
noncomputable def listStd (Fs : List ℝ) : ℝ :=
  Real.sqrt ((Fs.map fun F => (F - listMean Fs) ^ 2).sum / (Fs.length : ℝ))

/-- The inner-loop body: `if F_i < f(x_best): x_best = x + N_i`. -/
noncomputable def stepBest {n : ℕ} (f : (Fin n → ℝ) → ℝ) (x : Fin n → ℝ)
    (xbest : Fin n → ℝ) (Ni : Fin n → ℝ) : Fin n → ℝ :=
  if f (x + Ni) < f xbest then x + Ni else xbest

/-- One generation of the combined ES: run the inner loop over the draws
`Ns` updating `x_best`, then normalize the fitness values
`A = (F − 𝜇(F))/𝜎(F)` and move the mean `x = x − 𝛼(A⋅N)/λ`. -/
noncomputable def generation {n : ℕ} (f : (Fin n → ℝ) → ℝ) (alpha : ℝ)
    (st : (Fin n → ℝ) × (Fin n → ℝ)) (Ns : List (Fin n → ℝ)) :
    (Fin n → ℝ) × (Fin n → ℝ) :=
  let x := st.1
  let Fs := Ns.map fun Ni => f (x + Ni)
  let A := Fs.map fun F => (F - listMean Fs) / listStd Fs
  let xbest' := Ns.foldl (stepBest f x) st.2
  (x - (alpha / (Ns.length : ℝ)) • (List.zipWith (fun a Ni => a • Ni) A Ns).sum,
    xbest')

/-- A whole run: fold the generations (each given by its list of draws) over
the state `(x, x_best)`. -/
noncomputable def runES {n : ℕ} (f : (Fin n → ℝ) → ℝ) (alpha : ℝ)
    (gens : List (List (Fin n → ℝ))) (st : (Fin n → ℝ) × (Fin n → ℝ)) :
    (Fin n → ℝ) × (Fin n → ℝ) :=
  gens.foldl (generation f alpha) st

/-! ## Weight-vector lemmas -/

theorem rawWeight_pos {mu k : ℕ} (h1 : 1 ≤ k) (h2 : k ≤ mu) :
    0 < rawWeight mu k := by
  have hk : (0 : ℝ) < k := by exact_mod_cast h1
  have hlt : (k : ℝ) < (mu : ℝ) + 1 / 2 := by
    have : (k : ℝ) ≤ mu := by exact_mod_cast h2
    linarith
  have := Real.log_lt_log hk hlt
  unfold rawWeight
  linarith

theorem weightTotal_pos {mu : ℕ} (h : 1 ≤ mu) : 0 < weightTotal mu := by
  unfold weightTotal
  apply Finset.sum_pos
  · intro k hk
    rw [Finset.mem_Icc] at hk
    exact rawWeight_pos hk.1 hk.2
  · exact Finset.nonempty_Icc.mpr h

theorem sum_range_shift (mu : ℕ) (f : ℕ → ℝ) :
    ∑ k in Finset.range mu, f (k + 1) = ∑ k in Finset.Icc 1 mu, f k := by
  induction mu with
  | zero => simp
  | succ m ih => rw [Finset.sum_range_succ, ih, Finset.sum_Icc_succ_top (by omega)]

theorem weight_sum_Icc {mu : ℕ} (h : 1 ≤ mu) :
    ∑ k in Finset.Icc 1 mu, weight mu k = 1 := by
  unfold weight
  rw [← Finset.sum_div]
  exact div_self (ne_of_gt (weightTotal_pos h))

theorem weight_sum_range {mu : ℕ} (h : 1 ≤ mu) :
    ∑ k in Finset.range mu, weight mu (k + 1) = 1 := by
  rw [sum_range_shift mu (weight mu)]
  exact weight_sum_Icc h

theorem rawWeight_antitone {mu k j : ℕ} (h1 : 1 ≤ k) (hkj : k ≤ j) :
    rawWeight mu j ≤ rawWeight mu k := by
  unfold rawWeight
  have : Real.log (k : ℝ) ≤ Real.log (j : ℝ) :=
    Real.log_le_log (by exact_mod_cast h1) (by exact_mod_cast hkj)
  linarith

/-- C5: for every `mu ≥ 1`, the normalized log-rank weight vector
`w_k = (log(mu + 1/2) - log k) / Σ` sums to 1 over ranks `1..mu`, is
monotonically non-increasing in the rank, and is non-negative. -/
theorem weight_vector_normalized (mu : ℕ) (hmu : 1 ≤ mu) :
    (∑ k in Finset.Icc 1 mu, weight mu k) = 1 ∧
      (∀ k j : ℕ, 1 ≤ k → k ≤ j → j ≤ mu → weight mu j ≤ weight mu k) ∧
      (∀ k : ℕ, 1 ≤ k → k ≤ mu → 0 ≤ weight mu k) := by
  refine ⟨weight_sum_Icc hmu, ?_, ?_⟩
  · intro k j hk hkj _
    unfold weight
    exact (div_le_div_iff_of_pos_right (weightTotal_pos hmu)).mpr
      (rawWeight_antitone hk hkj)
  · intro k hk hkmu
    exact le_of_lt (div_pos (rawWeight_pos hk hkmu) (weightTotal_pos hmu))

/-- Witness for C5 at `mu = 2`. -/
theorem weight_vector_normalized_witness :
    (∑ k in Finset.Icc 1 2, weight 2 k) = 1 ∧
      (∀ k j : ℕ, 1 ≤ k → k ≤ j → j ≤ 2 → weight 2 j ≤ weight 2 k) ∧
      (∀ k : ℕ, 1 ≤ k → k ≤ 2 → 0 ≤ weight 2 k) :=
  weight_vector_normalized 2 (by decide)

/-- C10: the Himmelblau objective is non-negative for all real inputs, and is
a pure deterministic function of its two arguments (equal inputs give equal
outputs). -/
theorem himmelblau_nonneg_deterministic :
    ∀ x y : ℝ, 0 ≤ himmelblau x y ∧
      ∀ x' y' : ℝ, x' = x → y' = y → himmelblau x' y' = himmelblau x y := by
  intro x y
  constructor
  · unfold himmelblau
    positivity
  · rintro x' y' rfl rfl
    rfl

/-- Witness for C10 at `(x, y) = (3, 2)` (a global minimum of Himmelblau). -/
theorem himmelblau_nonneg_deterministic_witness :
    0 ≤ himmelblau 3 2 ∧ himmelblau 3 2 = himmelblau 3 2 :=
  ⟨(himmelblau_nonneg_deterministic 3 2).1,
    (himmelblau_nonneg_deterministic 3 2).2 3 2 rfl rfl⟩

/-! ## Covariance-update lemmas -/

theorem vecMulVec_self_isSymm {n : ℕ} (s : Fin n → ℝ) : (vecMulVec s s).IsSymm := by
  unfold Matrix.IsSymm
  ext i j
  simp [Matrix.vecMulVec_apply, Matrix.transpose_apply, mul_comm]

/-- C3: if the input covariance is symmetric, both the blended update
`(1-c)·C + c·outer(s,s)` and the notebook's additive update `C + outer(s,s)`
return a symmetric matrix, for every learning rate `c` and step `s`. -/
theorem updateCovariance_isSymm {n : ℕ} (c : ℝ) (C : Matrix (Fin n) (Fin n) ℝ)
    (s : Fin n → ℝ) (hC : C.IsSymm) :
    (updateCovariance c C s).IsSymm ∧ (updateCovarianceCode C s).IsSymm :=
  ⟨(hC.smul (1 - c)).add ((vecMulVec_self_isSymm s).smul c),
    hC.add (vecMulVec_self_isSymm s)⟩

/-- Witness for C3 at `n = 2`, `c = 1/2`, `C = I`, `s = ![1, 2]`. -/
theorem updateCovariance_isSymm_witness :
    (updateCovariance (1 / 2) (1 : Matrix (Fin 2) (Fin 2) ℝ) ![1, 2]).IsSymm ∧
      (updateCovarianceCode (1 : Matrix (Fin 2) (Fin 2) ℝ) ![1, 2]).IsSymm :=
  updateCovariance_isSymm (1 / 2) 1 ![1, 2] Matrix.isSymm_one

/-- C7 counterexample: the blended `update_covariance` at `learning_rate = 1`
with zero step does not return the identity covariance unchanged; it returns
the zero matrix. -/
theorem updateCovariance_one_zero_ne :
    updateCovariance 1 (1 : Matrix (Fin 1) (Fin 1) ℝ) 0 ≠ 1 := by
  intro h
  have h0 : updateCovariance 1 (1 : Matrix (Fin 1) (Fin 1) ℝ) 0 0 0 = 0 := by
    simp [updateCovariance, Matrix.add_apply, Matrix.smul_apply,
      Matrix.vecMulVec_apply]
  rw [h] at h0
  simp [Matrix.one_apply_eq] at h0

/-- C7 amended: with a zero step the notebook's additive update
`C + outer(0,0)` returns `C` unchanged for every covariance `C`, while the
spec's blended form at `learning_rate = 1` returns `outer(0,0)`, the zero
matrix, for every `C`. -/
theorem updateCovariance_zero_step (n : ℕ) (C : Matrix (Fin n) (Fin n) ℝ) :
    updateCovarianceCode C 0 = C ∧ updateCovariance 1 C 0 = 0 := by
  constructor
  · unfold updateCovarianceCode
    ext i j
    simp [Matrix.add_apply, Matrix.vecMulVec_apply]
  · unfold updateCovariance
    ext i j
    simp [Matrix.add_apply, Matrix.smul_apply, Matrix.vecMulVec_apply]

/-! ## Sampling-transform lemmas -/

theorem diagonal_sqrt_mulVec {n : ℕ} (e z : Fin n → ℝ) :
    (Matrix.diagonal fun i => Real.sqrt (e i)).mulVec z =
      fun i => Real.sqrt (e i) * z i :=
  funext fun i => Matrix.mulVec_diagonal _ z i

/-- C4: for a covariance with eigendecomposition `C = Q·diag(e)·Qᵀ`
(`Q` orthogonal, `e ≥ 0`), the sampling cell computes each offset as
`t = Q·(sqrt(e) ∘ z)`, which equals `M ⬝ z` for `M = Q·diag(sqrt(e))`, the
sampled point is `mean + t`, and `M·Mᵀ = C` — the algebraic form of "each
sampled point is a draw from `Normal(mean, covariance)`". -/
theorem sample_transform_correct {n : ℕ} (Q : Matrix (Fin n) (Fin n) ℝ)
    (e : Fin n → ℝ) (C : Matrix (Fin n) (Fin n) ℝ) (mean z : Fin n → ℝ)
    (_horth : Qᵀ * Q = 1) (hdecomp : C = Q * Matrix.diagonal e * Qᵀ)
    (hpsd : ∀ i, 0 ≤ e i) :
    sampleTransform Q e * (sampleTransform Q e)ᵀ = C ∧
      sampleOffset Q e z = (sampleTransform Q e).mulVec z ∧
      samplePoint mean Q e z = mean + sampleOffset Q e z := by
  refine ⟨?_, ?_, rfl⟩
  · unfold sampleTransform
    rw [Matrix.transpose_mul, Matrix.diagonal_transpose, Matrix.mul_assoc,
      ← Matrix.mul_assoc (Matrix.diagonal _), Matrix.diagonal_mul_diagonal]
    have hsq : (fun i => Real.sqrt (e i) * Real.sqrt (e i)) = e := by
      funext i
      exact Real.mul_self_sqrt (hpsd i)
    rw [hsq, ← Matrix.mul_assoc, hdecomp]
  · unfold sampleOffset sampleTransform
    rw [← Matrix.mulVec_mulVec, diagonal_sqrt_mulVec]

/-- Witness for C4 at `n = 2`, `Q = I`, `e = (4, 4)`, `C = diag(4, 4)`. -/
theorem sample_transform_correct_witness :
    sampleTransform (1 : Matrix (Fin 2) (Fin 2) ℝ) (fun _ => 4) *
        (sampleTransform (1 : Matrix (Fin 2) (Fin 2) ℝ) (fun _ => 4))ᵀ =
      Matrix.diagonal (fun _ => (4 : ℝ)) ∧
      sampleOffset (1 : Matrix (Fin 2) (Fin 2) ℝ) (fun _ => 4) (fun _ => 1) =
        (sampleTransform (1 : Matrix (Fin 2) (Fin 2) ℝ) (fun _ => 4)).mulVec
          (fun _ => 1) ∧
      samplePoint (fun _ => 0) (1 : Matrix (Fin 2) (Fin 2) ℝ) (fun _ => 4)
          (fun _ => 1) =
        (fun _ => 0) +
          sampleOffset (1 : Matrix (Fin 2) (Fin 2) ℝ) (fun _ => 4) (fun _ => 1) :=
  sample_transform_correct 1 (fun _ => 4) (Matrix.diagonal fun _ => (4 : ℝ))
    (fun _ => 0) (fun _ => 1) (by simp) (by simp) (fun i => by norm_num)

/-- C2: `sample` signals `InvalidCovarianceError` exactly when some eigenvalue
lies below `-eps`; when the eigenvalues are all non-negative (a numerically
PSD covariance, with tolerance `eps ≥ 0`) it returns the offsets and points
computed from the raw, unclamped eigenvalues. -/
theorem sample_error_iff {n : ℕ} (mean : Fin n → ℝ)
    (Q : Matrix (Fin n) (Fin n) ℝ) (e : Fin n → ℝ) (eps : ℝ)
    (zs : List (Fin n → ℝ)) :
    ((sample mean Q e eps zs =
        Except.error InvalidCovarianceError.invalidCovariance) ↔
      ∃ i, e i < -eps) ∧
      (0 ≤ eps → (∀ i, 0 ≤ e i) →
        sample mean Q e eps zs =
          Except.ok
            (zs.map fun z => (sampleOffset Q e z, samplePoint mean Q e z))) := by
  constructor
  · constructor
    · intro h
      by_contra hn
      unfold sample at h
      rw [if_neg hn] at h
      exact Except.noConfusion h
    · intro h
      unfold sample
      rw [if_pos h]
  · intro heps hpsd
    unfold sample
    rw [if_neg]
    rintro ⟨i, hi⟩
    have := hpsd i
    linarith

/-- Witness for C2 at `n = 1`, identity eigenvectors, eigenvalue 1, `eps = 0`,
one standard-normal draw. -/
theorem sample_error_iff_witness :
    sample ((fun _ => 0 : Fin 1 → ℝ)) 1 (fun _ => 1) 0 [fun _ => 1] =
      Except.ok
        ([fun _ => 1].map fun z =>
          (sampleOffset (1 : Matrix (Fin 1) (Fin 1) ℝ) (fun _ => 1) z,
            samplePoint (fun _ => 0) 1 (fun _ => 1) z)) :=
  (sample_error_iff (fun _ => 0) 1 (fun _ => 1) 0 [fun _ => 1]).2 (by norm_num)
    (fun i => by norm_num)

/-! ## `x_best` tracking -/

theorem foldl_stepBest_le {n : ℕ} (f : (Fin n → ℝ) → ℝ) (x : Fin n → ℝ)
    (Ns : List (Fin n → ℝ)) :
    ∀ xbest : Fin n → ℝ, f (Ns.foldl (stepBest f x) xbest) ≤ f xbest := by
  induction Ns with
  | nil =>
    intro xbest
    simp
  | cons Ni t ih =>
    intro xbest
    rw [List.foldl_cons]
    refine le_trans (ih _) ?_
    unfold stepBest
    split
    · exact le_of_lt (by assumption)
    · exact le_refl _

/-- C9: in the combined ES loop the tracked best fitness `f(x_best)` never
increases: it is non-increasing across each single generation (whatever the
current mean `x` and the draws are), and hence across every whole run. -/
theorem xbest_fitness_monotone {n : ℕ} (f : (Fin n → ℝ) → ℝ) (alpha : ℝ) :
    (∀ (st : (Fin n → ℝ) × (Fin n → ℝ)) (Ns : List (Fin n → ℝ)),
        f (generation f alpha st Ns).2 ≤ f st.2) ∧
      (∀ (gens : List (List (Fin n → ℝ))) (st : (Fin n → ℝ) × (Fin n → ℝ)),
        f (runES f alpha gens st).2 ≤ f st.2) := by
  have hgen : ∀ (st : (Fin n → ℝ) × (Fin n → ℝ)) (Ns : List (Fin n → ℝ)),
      f (generation f alpha st Ns).2 ≤ f st.2 := by
    intro st Ns
    show f (Ns.foldl (stepBest f st.1) st.2) ≤ f st.2
    exact foldl_stepBest_le f st.1 Ns st.2
  refine ⟨hgen, ?_⟩
  intro gens
  induction gens with
  | nil =>
    intro st
    simp [runES]
  | cons Ns t ih =>
    intro st
    unfold runES at ih ⊢
    rw [List.foldl_cons]
    exact le_trans (ih _) (hgen st Ns)

/-! ## The rank-weighted step: code vs. spec -/

/-- C1 counterexample: with `lambda = 2`, `mu = 2`, both offsets equal to the
all-ones vector and fitness `[0, 1]`, the code's `s` is the all-`1/2` vector
while the spec's weighted sum `Σ_k w_k t_(k)` is the all-ones vector (the
weights sum to 1): `np.mean(weighted, axis=0)` divides the rank-weighted sum
by `mu`. -/
theorem selectAndWeight_ne_specStep :
    selectAndWeight [(0 : ℝ), 1] ((fun _ _ => 1) : ℕ → Fin 1 → ℝ) 2 ≠
      specStep [(0 : ℝ), 1] ((fun _ _ => 1) : ℕ → Fin 1 → ℝ) 2 := by
  intro h
  have hsum : ∑ k in Finset.range 2, weight 2 (k + 1) * (1 : ℝ) = 1 := by
    simp only [mul_one]
    exact weight_sum_range (by decide)
  have h0 := congrFun h (0 : Fin 1)
  simp only [selectAndWeight, specStep] at h0
  rw [hsum] at h0
  norm_num at h0

/-- C1 amended: for every population and every `mu ≥ 1`, the step vector the
code returns is the spec's rank-weighted sum `Σ_k w_k t_(k)` divided by `mu`:
`mu * s_code = Σ_k w_k t_(k)` componentwise. -/
theorem selectAndWeight_eq_specStep_div_mu {n : ℕ} (fits : List ℝ)
    (N : ℕ → Fin n → ℝ) (mu : ℕ) (hmu : 1 ≤ mu) (j : Fin n) :
    (mu : ℝ) * selectAndWeight fits N mu j = specStep fits N mu j := by
  have hmu' : (mu : ℝ) ≠ 0 := Nat.cast_ne_zero.mpr (by omega)
  unfold selectAndWeight specStep
  rw [mul_comm, div_mul_cancel₀ _ hmu']

/-- Witness for the amended C1 at the population of the counterexample with
`mu = 2`. -/
theorem selectAndWeight_eq_specStep_div_mu_witness :
    ((2 : ℕ) : ℝ) *
        selectAndWeight [(0 : ℝ), 1] ((fun _ _ => 1) : ℕ → Fin 1 → ℝ) 2
          (0 : Fin 1) =
      specStep [(0 : ℝ), 1] ((fun _ _ => 1) : ℕ → Fin 1 → ℝ) 2 (0 : Fin 1) :=
  selectAndWeight_eq_specStep_div_mu [(0 : ℝ), 1] (fun _ _ => 1) 2 (by decide)
    (0 : Fin 1)

/-! ## Rank-only dependence of the step -/

theorem insertionSort_enum_map (g : ℝ → ℝ) (hg : StrictMono g)
    (l : List (ℕ × ℝ)) :
    (l.map (Prod.map id g)).insertionSort rankLE =
      (l.insertionSort rankLE).map (Prod.map id g) := by
  symm
  apply List.map_insertionSort
  intro a _ b _
  show a.2 ≤ b.2 ↔ g a.2 ≤ g b.2
  exact hg.le_iff_le.symm

theorem sortedIds_map_strictMono (g : ℝ → ℝ) (hg : StrictMono g)
    (fits : List ℝ) : sortedIds (fits.map g) = sortedIds fits := by
  unfold sortedIds
  rw [List.enum_map, insertionSort_enum_map g hg, List.map_map]
  exact List.map_congr_left fun p _ => by simp

/-- C6: the step vector depends on fitness only through the induced ranking:
populations whose fitness vectors induce the same argsort give identical `s`,
and composing the fitness with any strictly increasing transformation leaves
`s` unchanged. -/
theorem selectAndWeight_rank_only {n : ℕ} :
    (∀ (f1 f2 : List ℝ) (N : ℕ → Fin n → ℝ) (mu : ℕ),
        sortedIds f1 = sortedIds f2 →
          selectAndWeight f1 N mu = selectAndWeight f2 N mu) ∧
      (∀ g : ℝ → ℝ, StrictMono g → ∀ (fits : List ℝ) (N : ℕ → Fin n → ℝ)
        (mu : ℕ),
          selectAndWeight (fits.map g) N mu = selectAndWeight fits N mu) := by
  have hids : ∀ (f1 f2 : List ℝ) (N : ℕ → Fin n → ℝ) (mu : ℕ),
      sortedIds f1 = sortedIds f2 →
        selectAndWeight f1 N mu = selectAndWeight f2 N mu := by
    intro f1 f2 N mu h
    unfold selectAndWeight
    rw [h]
  exact ⟨hids, fun g hg fits N mu =>
    hids _ _ N mu (sortedIds_map_strictMono g hg fits)⟩

/-- Witness for C6: shifting every fitness value by 1 leaves the step vector
unchanged on a concrete population. -/
theorem selectAndWeight_rank_only_witness :
    selectAndWeight ([(0 : ℝ), 1].map fun t => t + 1)
        ((fun _ _ => 1) : ℕ → Fin 1 → ℝ) 1 =
      selectAndWeight [(0 : ℝ), 1] ((fun _ _ => 1) : ℕ → Fin 1 → ℝ) 1 :=
  selectAndWeight_rank_only.2 (fun t => t + 1)
    (fun a b hab => by simpa using hab) [0, 1] (fun _ _ => 1) 1

/-! ## Argsort: contract and stability -/

theorem sortedIds_perm (fits : List ℝ) :
    sortedIds fits ~ List.range fits.length := by
  unfold sortedIds
  calc (fits.enum.insertionSort rankLE).map Prod.fst
      ~ fits.enum.map Prod.fst := (List.perm_insertionSort rankLE _).map _
    _ = List.range fits.length := List.enum_map_fst fits

theorem enum_getD (fits : List ℝ) (p : ℕ × ℝ) (hp : p ∈ fits.enum) :
    fits.getD p.1 0 = p.2 := by
  obtain ⟨i, v⟩ := p
  rw [List.mem_enum_iff_getElem?] at hp
  simp [List.getD_eq_getElem?_getD, hp]

theorem sortedIds_sorted (fits : List ℝ) :
    ((sortedIds fits).map fun i => fits.getD i 0).Sorted (· ≤ ·) := by
  unfold sortedIds
  rw [List.map_map]
  have hs : (fits.enum.insertionSort rankLE).Sorted rankLE :=
    List.sorted_insertionSort rankLE fits.enum
  apply List.pairwise_map.mpr
  refine List.Pairwise.imp_of_mem ?_ hs
  intro p q hp hq hpq
  have hp' := enum_getD fits p ((List.mem_insertionSort rankLE).mp hp)
  have hq' := enum_getD fits q ((List.mem_insertionSort rankLE).mp hq)
  show fits.getD p.1 0 ≤ fits.getD q.1 0
  rw [hp', hq']
  exact hpq

theorem indexOf_lt_of_pair_sublist {a b : ℕ} :
    ∀ {l : List ℕ}, l.Nodup → [a, b] <+ l → l.indexOf a < l.indexOf b := by
  intro l
  induction l with
  | nil =>
    intro _ h
    exact absurd h (by simp)
  | cons c t ih =>
    intro hnd h
    rw [List.nodup_cons] at hnd
    cases h with
    | cons _ h' =>
      have ha : a ∈ t := h'.subset (by simp)
      have hb : b ∈ t := h'.subset (by simp)
      have hca : c ≠ a := fun e => hnd.1 (e ▸ ha)
      have hcb : c ≠ b := fun e => hnd.1 (e ▸ hb)
      rw [List.indexOf_cons_ne t hca, List.indexOf_cons_ne t hcb]
      exact Nat.succ_lt_succ (ih hnd.2 h')
    | cons₂ _ h' =>
      have hb : b ∈ t := h'.subset (by simp)
      have hab : a ≠ b := fun e => hnd.1 (e ▸ hb)
      rw [List.indexOf_cons_self, List.indexOf_cons_ne t hab]
      exact Nat.succ_pos _

theorem enum_pair_sublist (fits : List ℝ) {a b : ℕ} (hab : a < b)
    (hb : b < fits.length) :
    [(a, fits.getD a 0), (b, fits.getD b 0)] <+ fits.enum := by
  have ha : a < fits.length := lt_trans hab hb
  have ha' : a < fits.enum.length := by rw [List.enum_length]; exact ha
  have hb' : b < fits.enum.length := by rw [List.enum_length]; exact hb
  have hsub :
      ([⟨a, ha'⟩, ⟨b, hb'⟩] : List (Fin fits.enum.length)).map
          (fun i => fits.enum[i]) <+ fits.enum :=
    List.map_getElem_sublist (by simp [hab])
  rw [List.getD_eq_getElem fits 0 ha, List.getD_eq_getElem fits 0 hb]
  simpa [List.getElem_enum] using hsub

theorem sortedIds_stableTies (fits : List ℝ) :
    StableTies fits (sortedIds fits) := by
  intro a b hab hb hfeq
  have hpairs : [(a, fits.getD a 0), (b, fits.getD b 0)] <+
      fits.enum.insertionSort rankLE :=
    List.pair_sublist_insertionSort (le_of_eq hfeq) (enum_pair_sublist fits hab hb)
  have hids : [a, b] <+ sortedIds fits := by
    have := hpairs.map Prod.fst
    simpa [sortedIds] using this
  have hnd : (sortedIds fits).Nodup :=
    (sortedIds_perm fits).nodup_iff.mpr (List.nodup_range _)
  exact indexOf_lt_of_pair_sublist hnd hids

/-- C8 counterexample: the contract of `np.argsort(fits)` with the default
`kind='quicksort'` (a permutation of the indices along which fitness is
ascending, the only behaviour NumPy documents for the default kind) is also
met by the tie-reversing output `[1, 0]` on the tied population `[0, 0]`, so
the code's sort does not guarantee that the earlier-drawn member of a tie
receives the better rank. -/
theorem argsort_contract_not_stable :
    NpArgsortSpec [(0 : ℝ), 0] [1, 0] ∧ ¬ StableTies [(0 : ℝ), 0] [1, 0] := by
  refine ⟨⟨by decide, by simp [List.sorted_cons, List.getD]⟩, ?_⟩
  intro h
  have := h 0 1 (by decide) (by simp) (by norm_num [List.getD])
  exact absurd this (by decide)

/-- C8 amended: sorting by ascending fitness with a *stable* comparison sort
(NumPy's `kind='stable'`; `sortedIds` here) meets the argsort contract and
breaks every fitness tie by original sample order; the notebook's default
`np.argsort` kind guarantees the contract but not the tie order. -/
theorem sortedIds_contract_and_stable (fits : List ℝ) :
    NpArgsortSpec fits (sortedIds fits) ∧ StableTies fits (sortedIds fits) :=
  ⟨⟨sortedIds_perm fits, sortedIds_sorted fits⟩, sortedIds_stableTies fits⟩

/-- Witness for the amended C8: on the tied population `[0, 0]` the stable
argsort ranks member 0 before member 1. -/
theorem sortedIds_contract_and_stable_witness :
    (sortedIds [(0 : ℝ), 0]).indexOf 0 < (sortedIds [(0 : ℝ), 0]).indexOf 1 :=
  (sortedIds_contract_and_stable [0, 0]).2 0 1 (by norm_num) (by simp)
    (by norm_num [List.getD])

end ES
